import Mathlib

/-!
# Verification of the Rusty-KAN activation/graph engine

Shallow embedding of the Rusty-KAN sources (`src/rusty_kan/src`) and proofs
about them.  Conventions of the embedding:

* Rust `f64` values are modelled as real numbers (`ℝ`);
* a Rust `panic!` (or an out-of-bounds `Vec` index) is modelled by returning
  `none`: every fallible operation returns an `Option`;
* the `HashMap<String, f64>` memo of `BSpline` is modelled as an association
  list keyed by the `(index, degree, parameter)` triple (the Rust key is the
  string `i ++ " " ++ degree ++ " " ++ t`, which is in bijection with the
  triple);
* interior mutability (`Rc<RefCell<Edge>>`: one edge shared by its origin and
  destination nodes) is modelled by an explicit edge store `Store : ℕ → Edge`
  indexed by edge identity; nodes hold edge ids, and every operation threads
  the store;
* Vec indexing that is provably in range for every reachable call (the knot
  and control-point reads inside `BSpline::basis`/`eval`, which stay within
  `knots.length` whenever the root index is below `control_points.length`)
  is rendered with `List.getD _ _ 0`.
-/

noncomputable section

namespace RustyKAN

/-- The Sigmoid Linear Unit from `edge.rs`: `x / (1.0 + (-x).exp())`. -/
def silu (x : ℝ) : ℝ := x / (1 + Real.exp (-x))


/-- The spline memo cache: `HashMap<String, f64>` keyed by the string
`"{i} {degree} {t}"`, modelled as an association list keyed by the triple. -/
def Memo : Type := List ((ℕ × ℕ × ℝ) × ℝ)


/-- `HashMap::get` on the memo: first binding of the key wins. -/
def memoFind : Memo → ℕ × ℕ × ℝ → Option ℝ
  | [], _ => none
  | (k, v) :: m, k' => if k' = k then some v else memoFind m k'


/-- `HashMap::insert` on the memo: the new binding shadows any older one. -/
def memoInsert (m : Memo) (k : ℕ × ℕ × ℝ) (v : ℝ) : Memo := (k, v) :: m


/-- The memo-free Cox-de Boor recursion computed by `BSpline::basis`
(`spline.rs`), with the memo lookups and the domain check stripped: base case
`degree == 0` tests `knots[i] <= t && t < knots[i+1]`; the recursive case
adds the `left` and `right` terms, each taken as `0` when its denominator
vanishes. -/
def basisP (knots : List ℝ) (i d : ℕ) (t : ℝ) : ℝ :=
  match d with
  | 0 => if knots.getD i 0 ≤ t ∧ t < knots.getD (i + 1) 0 then 1 else 0
  | d' + 1 =>
    let left : ℝ :=
      if knots.getD (i + (d' + 1)) 0 ≠ knots.getD i 0 then
        (t - knots.getD i 0) / (knots.getD (i + (d' + 1)) 0 - knots.getD i 0) *
          basisP knots i d' t
      else 0
    let right : ℝ :=
      if knots.getD (i + (d' + 1) + 1) 0 ≠ knots.getD (i + 1) 0 then
        (knots.getD (i + (d' + 1) + 1) 0 - t) /
            (knots.getD (i + (d' + 1) + 1) 0 - knots.getD (i + 1) 0) *
          basisP knots (i + 1) d' t
      else 0
    left + right


/-- `BSpline::basis` from `spline.rs`, with the memo threaded explicitly.
The memo is consulted *before* the domain check (as in the source); a `t`
outside `[0,1]` that misses the memo panics (`none`).  In the recursive case
the `left` recursive call updates the memo seen by the `right` call, and the
result is inserted under the key `(i, degree, t)` before returning. -/
def basisM (knots : List ℝ) (i d : ℕ) (t : ℝ) (m : Memo) : Option (ℝ × Memo) :=
  match memoFind m (i, d, t) with
  | some v => some (v, m)
  | none =>
    if t < 0 ∨ 1 < t then none
    else
      match d with
      | 0 => some ((if knots.getD i 0 ≤ t ∧ t < knots.getD (i + 1) 0 then (1 : ℝ) else 0), m)
      | d' + 1 =>
        match (if knots.getD (i + (d' + 1)) 0 ≠ knots.getD i 0 then
                 (basisM knots i d' t m).map
                   (fun p => ((t - knots.getD i 0) /
                       (knots.getD (i + (d' + 1)) 0 - knots.getD i 0) * p.1, p.2))
               else some (0, m)) with
        | none => none
        | some (left, m1) =>
          match (if knots.getD (i + (d' + 1) + 1) 0 ≠ knots.getD (i + 1) 0 then
                   (basisM knots (i + 1) d' t m1).map
                     (fun p => ((knots.getD (i + (d' + 1) + 1) 0 - t) /
                         (knots.getD (i + (d' + 1) + 1) 0 - knots.getD (i + 1) 0) * p.1, p.2))
                 else some (0, m1)) with
          | none => none
          | some (right, m2) =>
            some (left + right, memoInsert m2 (i, d, t) (left + right))


/-- `struct BSpline` from `spline.rs`. -/
structure BSpline where
  control_points : List ℝ
  knots : List ℝ
  degree : ℕ
  memo : Memo


/-- `BSpline::new`: uniform knots `k / (n + degree)` for
`k in 0 .. n + degree + 1`, empty memo. -/
def BSpline.new (control_points : List ℝ) (degree : ℕ) : BSpline :=
  let n := control_points.length
  { control_points := control_points
    knots := (List.range (n + degree + 1)).map (fun k : ℕ => (k : ℝ) / ((n : ℝ) + (degree : ℝ)))
    degree := degree
    memo := [] }


/-- The accumulation loop of `BSpline::eval`:
`for i in 0..n { result += control_points[i] * basis(i, degree, t) }`,
threading the memo through the `basis` calls. -/
def evalLoop (cp knots : List ℝ) (d : ℕ) (t : ℝ) : List ℕ → ℝ → Memo → Option (ℝ × Memo)
  | [], acc, m => some (acc, m)
  | i :: is, acc, m =>
    match basisM knots i d t m with
    | none => none
    | some (b, m') => evalLoop cp knots d t is (acc + cp.getD i 0 * b) m'


/-- `BSpline::eval` from `spline.rs`: panics (`none`) for `t` outside `[0,1]`,
otherwise sums `control_points[i] * basis(i, degree, t)` over all indices,
returning the value together with the spline whose memo was updated. -/
def BSpline.evalM (s : BSpline) (t : ℝ) : Option (ℝ × BSpline) :=
  if t < 0 ∨ 1 < t then none
  else
    (evalLoop s.control_points s.knots s.degree t
        (List.range s.control_points.length) 0 s.memo).map
      (fun p => (p.1, { s with memo := p.2 }))


/-- A memo is consistent when every binding it holds is the value of the
memo-free Cox-de Boor recursion at the binding's key. -/
def MemoOK (knots : List ℝ) (m : Memo) : Prop :=
  ∀ i d t v, memoFind m (i, d, t) = some v → v = basisP knots i d t


/-- The mathematical value of `BSpline::eval` at `t`:
`Σ_i control_points[i] * basis(i, degree, t)` with the memo-free basis. -/
def splineSum (cp knots : List ℝ) (d : ℕ) (t : ℝ) : ℝ :=
  ((List.range cp.length).map (fun i => cp.getD i 0 * basisP knots i d t)).sum


/-- `struct Edge` from `edge.rs` (`end` is a Lean keyword, rendered `end_`). -/
structure Edge where
  start : ℕ
  end_ : ℕ
  spline : BSpline
  layer : ℕ
  gradient : List ℝ


/-- `Edge::new`: gradient buffer of zeros, one per control point. -/
def Edge.new (start end_ : ℕ) (spline : BSpline) (layer : ℕ) : Edge :=
  { start := start, end_ := end_, spline := spline, layer := layer
    gradient := List.replicate spline.control_points.length 0 }


/-- Modelled from the spec: `Edge::standard` is called by `kan.rs` and the
tests but its definition is not under `src/`.  Per the spec (§4.5) it wires "a
freshly constructed Edge with a fixed small number of control points (degree
2) and initial values drawn from a bounded random distribution" (the test
`edge_standard_pass` pins 5 control points and degree 2).  The random draw is
not reproducible, so the control-point values are taken as a parameter. -/
def Edge.standard (control_points : List ℝ) (start end_ layer : ℕ) : Edge :=
  Edge.new start end_ (BSpline.new control_points 2) layer


/-- `Edge::forward`: `self.spline.eval(t) + silu(t)`, with the spline's memo
updated by `eval`. -/
def Edge.forward (e : Edge) (t : ℝ) : Option (ℝ × Edge) :=
  (e.spline.evalM t).map (fun p => (p.1 + silu t, { e with spline := p.2 }))


/-- The mathematical value of `Edge::forward` at `t`. -/
def edgeValue (e : Edge) (t : ℝ) : ℝ :=
  splineSum e.spline.control_points e.spline.knots e.spline.degree t + silu t


/-- The element loop of `Edge::forward_batch`: Rust maps
`|t| self.spline.eval(t) + silu(t)` over a `Vector` iterator. -/
def batchLoop : Edge → List ℝ → Option (List ℝ × Edge)
  | e, [] => some ([], e)
  | e, t :: ts =>
    match Edge.forward e t with
    | none => none
    | some (v, e') =>
      match batchLoop e' ts with
      | none => none
      | some (vs, e'') => some (v :: vs, e'')


/-- `Edge::forward_batch`: the `Vector` iterator (`vector.rs`) pops elements
from the back, so the Rust `map(..).collect()` visits the inputs in reverse
order; the final `result.reverse()` then restores the original order. -/
def Edge.forward_batch (e : Edge) (inputs : List ℝ) : Option (List ℝ × Edge) :=
  (batchLoop e inputs.reverse).map (fun p => (p.1.reverse, p.2))


/-- The gradient loop of `Edge::backward`:
`for i in 0..n { gradient[i] = basis(i, degree, t) * upstream_gradient }`,
with the memo threaded and an out-of-range write panicking (`none`). -/
def bwdLoop (knots : List ℝ) (d : ℕ) (t g : ℝ) :
    List ℕ → List ℝ → Memo → Option (List ℝ × Memo)
  | [], grad, m => some (grad, m)
  | i :: is, grad, m =>
    match basisM knots i d t m with
    | none => none
    | some (b, m') =>
      if i < grad.length then bwdLoop knots d t g is (grad.set i (b * g)) m'
      else none


/-- `Edge::backward` from `edge.rs`. -/
def Edge.backward (e : Edge) (t g : ℝ) : Option Edge :=
  (bwdLoop e.spline.knots e.spline.degree t g
      (List.range e.spline.control_points.length) e.gradient e.spline.memo).map
    (fun p => { e with gradient := p.1, spline := { e.spline with memo := p.2 } })


/-- `Edge::update_weights` from `edge.rs`: panics (`none`) for a non-positive
learning rate; the `Vector` subtraction panics (`none`) if the control-point
and gradient lengths disagree; otherwise
`control_points -= gradient * learning_rate` and the gradient is reset to a
zero vector of the new control-point length. -/
def Edge.update_weights (e : Edge) (lr : ℝ) : Option Edge :=
  if lr ≤ 0 then none
  else if e.spline.control_points.length = e.gradient.length then
    let cp' := List.zipWith (fun a b => a - b * lr) e.spline.control_points e.gradient
    some { e with spline := { e.spline with control_points := cp' }
                  gradient := List.replicate cp'.length 0 }
  else none


/-- The memo-consistency invariant at the `Edge` level. -/
def edgeMemoOK (e : Edge) : Prop := MemoOK e.spline.knots e.spline.memo


/-! ## Nodes, layers and the network

`node.rs`, `layer.rs` and `kan.rs` share edges through `Rc<RefCell<Edge>>`:
the origin node holds an edge as outgoing and the destination node holds the
*same* cell as incoming.  The embedding renders the heap of cells as a store
`Store : ℕ → Edge` indexed by edge identity; nodes hold edge ids and every
operation threads the store, so a mutation through one alias is seen by the
other, exactly as with `RefCell`. -/
/-- The heap of `Rc<RefCell<Edge>>` cells, addressed by edge id. -/
def Store : Type := ℕ → Edge


/-- `struct Node` from `node.rs`: lists of incoming/outgoing edge ids plus
the layer index. -/
structure Node where
  incoming : List ℕ
  outgoing : List ℕ
  layer : ℕ


/-- A matrix (`matrix.rs`) as its list of rows. -/
def Matrix : Type := List (List ℝ)


/-- The accumulation loop of `Node::forward`:
`for (i, edge) { result += edge.borrow_mut().forward(inputs[i]) }`, walking
the `(edge id, input)` pairs and threading the store. -/
def nodeFwdLoop : Store → List (ℕ × ℝ) → ℝ → Option (ℝ × Store)
  | ρ, [], acc => some (acc, ρ)
  | ρ, (eid, t) :: rest, acc =>
    match Edge.forward (ρ eid) t with
    | none => none
    | some (v, e') => nodeFwdLoop (Function.update ρ eid e') rest (acc + v)


/-- `Node::forward` from `node.rs`: panics (`none`) unless
`inputs.len() == incoming.len()`, then sums the incoming edges' forward
values at the corresponding inputs. -/
def Node.forward (ρ : Store) (nd : Node) (inputs : List ℝ) : Option (ℝ × Store) :=
  if inputs.length = nd.incoming.length then
    nodeFwdLoop ρ (nd.incoming.zip inputs) 0
  else none


/-- The loop of `Node::backward`: for each incoming edge (in order) it reads
`t[i]` (an out-of-range read panics) and calls `edge.backward(t[i], g)`.
There is no length check on `t`. -/
def nodeBwdLoop : Store → List (ℕ × ℕ) → List ℝ → ℝ → Option Store
  | ρ, [], _, _ => some ρ
  | ρ, (i, eid) :: rest, t, g =>
    match t.get? i with
    | none => none
    | some ti =>
      match Edge.backward (ρ eid) ti g with
      | none => none
      | some e' => nodeBwdLoop (Function.update ρ eid e') rest t g


/-- `Node::backward` from `node.rs`: iterates `incoming.iter().enumerate()`,
with no check that `t.len() == incoming.len()`. -/
def Node.backward (ρ : Store) (nd : Node) (t : List ℝ) (g : ℝ) : Option Store :=
  nodeBwdLoop ρ nd.incoming.enum t g


/-- The loop of `Node::update_weights` over the incoming edges. -/
def nodeUpdLoop : Store → List ℕ → ℝ → Option Store
  | ρ, [], _ => some ρ
  | ρ, eid :: rest, lr =>
    match Edge.update_weights (ρ eid) lr with
    | none => none
    | some e' => nodeUpdLoop (Function.update ρ eid e') rest lr


/-- `Node::update_weights` from `node.rs`. -/
def Node.update_weights (ρ : Store) (nd : Node) (lr : ℝ) : Option Store :=
  nodeUpdLoop ρ nd.incoming lr


/-- `struct Layer` from `layer.rs`. -/
structure Layer where
  nodes : List Node


instance : Inhabited Layer := ⟨⟨[]⟩⟩


/-- The per-node loop of `Layer::forward`: each node's scalar is broadcast
into a row of length `node.outgoing.len()` and the row is appended to the
result matrix (`Matrix::push`, which is declared in the repository but whose
body is not under `src/`; modelled from the spec's row-append reading). -/
def layerFwdLoop : Store → List (Node × List ℝ) → Option (Matrix × Store)
  | ρ, [] => some ([], ρ)
  | ρ, (nd, row) :: rest =>
    match Node.forward ρ nd row with
    | none => none
    | some (s, ρ') =>
      match layerFwdLoop ρ' rest with
      | none => none
      | some (rows, ρ'') => some (List.replicate nd.outgoing.length s :: rows, ρ'')


/-- `Layer::forward` from `layer.rs`: `input.shape()` panics on a rowless
matrix (`rows[0]` read), then the row count must equal the node count. -/
def Layer.forward (ρ : Store) (ly : Layer) (input : Matrix) : Option (Matrix × Store) :=
  match input with
  | [] => none
  | _ :: _ =>
    if input.length = ly.nodes.length then layerFwdLoop ρ (ly.nodes.zip input)
    else none


/-- The per-node loop of `Layer::backward`:
`nodes[i].backward(input[i], upstream_gradient[i])`. -/
def layerBwdLoop : Store → List (Node × (List ℝ × ℝ)) → Option Store
  | ρ, [] => some ρ
  | ρ, (nd, row, g) :: rest =>
    match Node.backward ρ nd row g with
    | none => none
    | some ρ' => layerBwdLoop ρ' rest


/-- `Layer::backward` from `layer.rs`: `input.shape()` panics on a rowless
matrix, then both the row count and the upstream-gradient length must equal
the node count. -/
def Layer.backward (ρ : Store) (ly : Layer) (input : Matrix) (ug : List ℝ) : Option Store :=
  match input with
  | [] => none
  | _ :: _ =>
    if input.length = ly.nodes.length then
      if ug.length = ly.nodes.length then layerBwdLoop ρ (ly.nodes.zip (input.zip ug))
      else none
    else none


/-- The per-node loop of `Layer::update_weights`. -/
def layerUpdLoop : Store → List Node → ℝ → Option Store
  | ρ, [], _ => some ρ
  | ρ, nd :: rest, lr =>
    match Node.update_weights ρ nd lr with
    | none => none
    | some ρ' => layerUpdLoop ρ' rest lr


/-- `Layer::update_weights` from `layer.rs`. -/
def Layer.update_weights (ρ : Store) (ly : Layer) (lr : ℝ) : Option Store :=
  layerUpdLoop ρ ly.nodes lr


/-- `struct KAN` from `kan.rs`. -/
structure KAN where
  layers : List Layer


/-- The layer loop of `KAN::forward` (also the replay loop of
`KAN::backward`): feeds the running output matrix through each layer in
order; the replay variant additionally collects each layer's output. -/
def kanReplay : Store → List Layer → Matrix → Option (List Matrix × Store)
  | ρ, [], _ => some ([], ρ)
  | ρ, ly :: rest, cur =>
    match Layer.forward ρ ly cur with
    | none => none
    | some (out, ρ') =>
      match kanReplay ρ' rest out with
      | none => none
      | some (outs, ρ'') => some (out :: outs, ρ'')


/-- `KAN::forward` from `kan.rs`: runs every layer in order, then reads
`output[0][0]` — both index reads panic (`none`) when out of range. -/
def KAN.forward (ρ : Store) (kan : KAN) (input : Matrix) : Option (ℝ × Store) :=
  match kanReplay ρ kan.layers input with
  | none => none
  | some (outs, ρ') =>
    match (outs.getLastD input).get? 0 with
    | none => none
    | some row =>
      match row.get? 0 with
      | none => none
      | some v => some (v, ρ')


/-- The `layer_input` selection inside `KAN::backward`'s reverse loop, for the
layer at reverse-enumeration counter `i`:
`if i > 0 { layer_outputs[i - 1].clone() } else { input.clone() }`. -/
def layerInputAt (louts : List Matrix) (input : Matrix) (i : ℕ) : Matrix :=
  if i > 0 then louts.getD (i - 1) [] else input


/-- The upstream-gradient sum `upstream_gradient.elements.iter().fold(0.0, |acc, &x| acc + x)`. -/
def sumFold (ug : List ℝ) : ℝ := ug.foldl (fun acc x => acc + x) 0


/-- The reverse loop of `KAN::backward`: walks `layers.iter().rev().enumerate()`;
each layer gets `layerInputAt louts input i` and the current upstream gradient,
and afterwards the upstream gradient is rebuilt as the total sum replicated
once per node of the layer just processed. -/
def kanBwdLoop : Store → List (ℕ × Layer) → List Matrix → Matrix → List ℝ → Option Store
  | ρ, [], _, _, _ => some ρ
  | ρ, (i, ly) :: rest, louts, input, ug =>
    match Layer.backward ρ ly (layerInputAt louts input i) ug with
    | none => none
    | some ρ' =>
      kanBwdLoop ρ' rest louts input (List.replicate ly.nodes.length (sumFold ug))


/-- `KAN::backward` from `kan.rs`: replays the forward pass caching each
layer's output, reads the final prediction from
`layer_outputs.last().unwrap()[0][0]` (the `unwrap` panics when there are no
layers, the index reads panic when out of range), seeds the upstream gradient
with `2 * (final_output - target)`, and runs the reverse loop. -/
def KAN.backward (ρ : Store) (kan : KAN) (input : Matrix) (target : ℝ) : Option Store :=
  match kanReplay ρ kan.layers input with
  | none => none
  | some (louts, ρ1) =>
    match louts.getLast? with
    | none => none
    | some lastOut =>
      match lastOut.get? 0 with
      | none => none
      | some row =>
        match row.get? 0 with
        | none => none
        | some finalOut =>
          kanBwdLoop ρ1 kan.layers.reverse.enum louts input
            [2 * (finalOut - target)]


/-- The layer loop of `KAN::update_edges`. -/
def kanUpdLoop : Store → List Layer → ℝ → Option Store
  | ρ, [], _ => some ρ
  | ρ, ly :: rest, lr =>
    match Layer.update_weights ρ ly lr with
    | none => none
    | some ρ' => kanUpdLoop ρ' rest lr


/-- `KAN::update_edges` from `kan.rs`: panics (`none`) for a non-positive
learning rate, then delegates to every layer. -/
def KAN.update_edges (ρ : Store) (kan : KAN) (lr : ℝ) : Option Store :=
  if lr ≤ 0 then none else kanUpdLoop ρ kan.layers lr


/-- `KAN::loss_single` from `kan.rs`: wraps the input vector as a one-row
matrix, runs `forward`, and squares the error. -/
def KAN.loss_single (ρ : Store) (kan : KAN) (input : List ℝ) (target : ℝ) :
    Option (ℝ × Store) :=
  match KAN.forward ρ kan [input] with
  | none => none
  | some (o, ρ') => some ((o - target) ^ 2, ρ')


/-- `KAN::train` from `kan.rs`: `backward`, then `update_edges`, then
`loss_single` — the returned loss is computed only after `update_edges` has
mutated the control points. -/
def KAN.train (ρ : Store) (kan : KAN) (input : List ℝ) (target lr : ℝ) :
    Option (ℝ × Store) :=
  match KAN.backward ρ kan [input] target with
  | none => none
  | some ρ1 =>
    match KAN.update_edges ρ1 kan lr with
    | none => none
    | some ρ2 => KAN.loss_single ρ2 kan input target


/-- The topology built by `KAN::standard(n, m)` (`kan.rs`): the network keeps
only the hidden layer (`m` nodes, each with `n` incoming edges shared with
the discarded input nodes and one outgoing edge) and the output layer (one
node holding the hidden nodes' outgoing edges as incoming, and *no* outgoing
edges).  Edge ids: `j * m + i` is the edge from input node `j` to hidden node
`i`, and `n * m + i` is the edge from hidden node `i` to the output node.
The edges themselves live in the store; `Edge::standard` (not under `src/`)
fills them with random degree-2 splines, so no property below depends on the
store contents. -/
def KAN.standard (n m : ℕ) : KAN :=
  { layers :=
      [ { nodes := (List.range m).map (fun i =>
            { incoming := (List.range n).map (fun j => j * m + i)
              outgoing := [n * m + i]
              layer := 1 }) },
        { nodes :=
            [ { incoming := (List.range m).map (fun i => n * m + i)
                outgoing := []
                layer := 2 } ] } ] }


/-! ## Concrete test networks

Small networks with degree-0 splines (one or two control points, knot vectors
`[0, 1]` or `[0, 1/2, 1]`), used to evaluate the embedded code at specific
inputs.  Degree-0 basis calls never insert into the memo, so every memo stays
empty along these runs. -/
/-- Single node, one incoming edge (id 0, control point `1/2`), one outgoing
edge (id 1): the smallest network on which `KAN::forward` succeeds. -/
def kanC4 : KAN :=
  { layers := [ { nodes := [ { incoming := [0], outgoing := [1], layer := 0 } ] } ] }


def storeC4 : Store := fun id =>
  if id = 0 then Edge.new 0 0 (BSpline.new [(1/2 : ℝ)] 0) 0
  else Edge.new 0 0 (BSpline.new [(0 : ℝ)] 0) 1


/-- Two-layer chain: node X (incoming edge 0 with control point `3/4`,
outgoing edge 1) feeding node Y (incoming edge 1 with control points
`[0, 1/4]` over knots `[0, 1/2, 1]`, outgoing edge 2).  At network input `0`,
X's forward output is `3/4`, so Y's spline is evaluated at `3/4` (basis 1
active) during the forward pass, while the network input `0` lies in basis
0's support — the two gradients are distinguishable. -/
def kanC2 : KAN :=
  { layers := [ { nodes := [ { incoming := [0], outgoing := [1], layer := 0 } ] },
                { nodes := [ { incoming := [1], outgoing := [2], layer := 1 } ] } ] }


def storeC2 : Store := fun id =>
  if id = 0 then Edge.new 0 0 (BSpline.new [(3/4 : ℝ)] 0) 0
  else if id = 1 then Edge.new 0 0 (BSpline.new [(0 : ℝ), (1/4 : ℝ)] 0) 1
  else Edge.new 0 0 (BSpline.new [(0 : ℝ)] 0) 2


/-- Two adjacent layers with node counts 2 and 1 (the first layer's two nodes
each have one incoming and one outgoing edge; the second layer's node takes
both). -/
def kanC3 : KAN :=
  { layers := [ { nodes := [ { incoming := [0], outgoing := [2], layer := 0 },
                             { incoming := [1], outgoing := [3], layer := 0 } ] },
                { nodes := [ { incoming := [2, 3], outgoing := [4], layer := 1 } ] } ] }


def storeC3 : Store := fun _ => Edge.new 0 0 (BSpline.new [(0 : ℝ)] 0) 0


/-- A node with a single incoming edge, for exercising `Node::backward`. -/
def nodeC7 : Node := { incoming := [0], outgoing := [], layer := 0 }


def storeC7 : Store := fun _ => Edge.new 0 0 (BSpline.new [(1 : ℝ)] 0) 0


theorem memoOK_nil (knots : List ℝ) : MemoOK knots [] := by
  intro i d t v h
  simp [memoFind] at h


theorem memoFind_insert (m : Memo) (k k' : ℕ × ℕ × ℝ) (v : ℝ) :
    memoFind (memoInsert m k v) k' = if k' = k then some v else memoFind m k' := by
  simp [memoInsert, memoFind]


theorem memoOK_insert {knots : List ℝ} {m : Memo} (h : MemoOK knots m)
    (i d : ℕ) (t : ℝ) :
    MemoOK knots (memoInsert m (i, d, t) (basisP knots i d t)) := by
  intro i' d' t' v hf
  rw [memoFind_insert] at hf
  by_cases hk : ((i', d', t') : ℕ × ℕ × ℝ) = (i, d, t)
  · injection hk with h1 h2
    injection h2 with h3 h4
    subst h1; subst h3; subst h4
    rw [if_pos rfl] at hf
    exact (Option.some_inj.mp hf).symm
  · simp [hk] at hf
    exact h i' d' t' v hf


theorem basisP_zero (knots : List ℝ) (i : ℕ) (t : ℝ) :
    basisP knots i 0 t = if knots.getD i 0 ≤ t ∧ t < knots.getD (i + 1) 0 then 1 else 0 := by
  rw [basisP]


theorem basisP_succ (knots : List ℝ) (i d' : ℕ) (t : ℝ) :
    basisP knots i (d' + 1) t =
      (if knots.getD (i + (d' + 1)) 0 ≠ knots.getD i 0 then
        (t - knots.getD i 0) / (knots.getD (i + (d' + 1)) 0 - knots.getD i 0) *
          basisP knots i d' t
      else 0) +
      (if knots.getD (i + (d' + 1) + 1) 0 ≠ knots.getD (i + 1) 0 then
        (knots.getD (i + (d' + 1) + 1) 0 - t) /
            (knots.getD (i + (d' + 1) + 1) 0 - knots.getD (i + 1) 0) *
          basisP knots (i + 1) d' t
      else 0) := by
  rw [basisP]


/-- Memoization is sound: starting from a consistent memo, the memoized
`BSpline::basis` returns exactly the value of the memo-free Cox-de Boor
recursion and leaves the memo consistent. -/
theorem basisM_ok (knots : List ℝ) (t : ℝ) (ht0 : 0 ≤ t) (ht1 : t ≤ 1) :
    ∀ (d i : ℕ) (m : Memo), MemoOK knots m →
      ∃ m', basisM knots i d t m = some (basisP knots i d t, m') ∧ MemoOK knots m' := by
  have hdom : ¬(t < 0 ∨ 1 < t) := by
    push_neg
    exact ⟨ht0, ht1⟩
  intro d
  induction d with
  | zero =>
    intro i m hm
    rcases hfind : memoFind m (i, 0, t) with _ | v
    · refine ⟨m, ?_, hm⟩
      rw [basisM, hfind]
      simp only [if_neg hdom]
      rw [basisP_zero]
    · refine ⟨m, ?_, hm⟩
      rw [basisM, hfind]
      rw [hm i 0 t v hfind]
  | succ d' ih =>
    intro i m hm
    rcases hfind : memoFind m (i, d' + 1, t) with _ | v
    · by_cases hL : knots.getD (i + (d' + 1)) 0 ≠ knots.getD i 0
      · obtain ⟨m1, hb1, hm1⟩ := ih i m hm
        by_cases hR : knots.getD (i + (d' + 1) + 1) 0 ≠ knots.getD (i + 1) 0
        · obtain ⟨m2, hb2, hm2⟩ := ih (i + 1) m1 hm1
          refine ⟨_, ?_, memoOK_insert hm2 i (d' + 1) t⟩
          rw [basisM, hfind]
          simp only [if_neg hdom, if_pos hL, if_pos hR, hb1, hb2, Option.map_some',
            Nat.succ_eq_add_one]
          rw [basisP_succ, if_pos hL, if_pos hR]
        · refine ⟨_, ?_, memoOK_insert hm1 i (d' + 1) t⟩
          rw [basisM, hfind]
          simp only [if_neg hdom, if_pos hL, if_neg hR, hb1, Option.map_some',
            Nat.succ_eq_add_one]
          rw [basisP_succ, if_pos hL, if_neg hR]
      · by_cases hR : knots.getD (i + (d' + 1) + 1) 0 ≠ knots.getD (i + 1) 0
        · obtain ⟨m2, hb2, hm2⟩ := ih (i + 1) m hm
          refine ⟨_, ?_, memoOK_insert hm2 i (d' + 1) t⟩
          rw [basisM, hfind]
          simp only [if_neg hdom, if_neg hL, if_pos hR, hb2, Option.map_some',
            Nat.succ_eq_add_one]
          rw [basisP_succ, if_neg hL, if_pos hR]
        · refine ⟨_, ?_, memoOK_insert hm i (d' + 1) t⟩
          rw [basisM, hfind]
          simp only [if_neg hdom, if_neg hL, if_neg hR, Nat.succ_eq_add_one]
          rw [basisP_succ, if_neg hL, if_neg hR]
    · refine ⟨m, ?_, hm⟩
      rw [basisM, hfind]
      rw [hm i (d' + 1) t v hfind]


theorem evalLoop_ok (cp knots : List ℝ) (d : ℕ) (t : ℝ) (ht0 : 0 ≤ t) (ht1 : t ≤ 1) :
    ∀ (is : List ℕ) (acc : ℝ) (m : Memo), MemoOK knots m →
      ∃ m', evalLoop cp knots d t is acc m =
          some (acc + ((is.map (fun i => cp.getD i 0 * basisP knots i d t)).sum), m') ∧
        MemoOK knots m' := by
  intro is
  induction is with
  | nil =>
    intro acc m hm
    exact ⟨m, by simp [evalLoop], hm⟩
  | cons i is ih =>
    intro acc m hm
    obtain ⟨m1, hb, hm1⟩ := basisM_ok knots t ht0 ht1 d i m hm
    obtain ⟨m', hrec, hm'⟩ := ih (acc + cp.getD i 0 * basisP knots i d t) m1 hm1
    refine ⟨m', ?_, hm'⟩
    rw [evalLoop, hb]
    show evalLoop cp knots d t is (acc + cp.getD i 0 * basisP knots i d t) m1 = _
    rw [hrec]
    simp [add_assoc]


theorem evalM_ok (s : BSpline) (t : ℝ) (ht0 : 0 ≤ t) (ht1 : t ≤ 1)
    (hm : MemoOK s.knots s.memo) :
    ∃ m', s.evalM t = some (splineSum s.control_points s.knots s.degree t,
        { s with memo := m' }) ∧ MemoOK s.knots m' := by
  have hdom : ¬(t < 0 ∨ 1 < t) := by
    push_neg
    exact ⟨ht0, ht1⟩
  obtain ⟨m', hloop, hm'⟩ :=
    evalLoop_ok s.control_points s.knots s.degree t ht0 ht1
      (List.range s.control_points.length) 0 s.memo hm
  refine ⟨m', ?_, hm'⟩
  rw [BSpline.evalM, if_neg hdom, hloop]
  simp [splineSum]


theorem evalM_out_of_domain (s : BSpline) (t : ℝ) (h : t < 0 ∨ 1 < t) :
    s.evalM t = none := by
  rw [BSpline.evalM, if_pos h]


theorem getD_set_zero (l : List ℝ) (i j : ℕ) (a : ℝ) :
    (l.set i a).getD j 0 = if i = j ∧ i < l.length then a else l.getD j 0 := by
  rw [List.getD_eq_getElem?_getD, List.getElem?_set, List.getD_eq_getElem?_getD]
  by_cases hij : i = j
  · subst hij
    by_cases hlen : i < l.length
    · simp [hlen]
    · simp [hlen, List.getElem?_eq_none (Nat.le_of_not_lt hlen)]
  · simp [hij]


theorem bwdLoop_ok (knots : List ℝ) (d : ℕ) (t g : ℝ) (ht0 : 0 ≤ t) (ht1 : t ≤ 1) :
    ∀ (is : List ℕ) (grad : List ℝ) (m : Memo), MemoOK knots m →
      (∀ i ∈ is, i < grad.length) →
      ∃ grad' m', bwdLoop knots d t g is grad m = some (grad', m') ∧ MemoOK knots m' ∧
        grad'.length = grad.length ∧
        ∀ j, grad'.getD j 0 =
          if j ∈ is then basisP knots j d t * g else grad.getD j 0 := by
  intro is
  induction is with
  | nil =>
    intro grad m hm _
    exact ⟨grad, m, by simp [bwdLoop], hm, rfl, by simp⟩
  | cons i is ih =>
    intro grad m hm hlen
    obtain ⟨m1, hb, hm1⟩ := basisM_ok knots t ht0 ht1 d i m hm
    have hi : i < grad.length := hlen i (by simp)
    obtain ⟨grad', m', hrec, hm', hglen, hget⟩ :=
      ih (grad.set i (basisP knots i d t * g)) m1 hm1
        (by

          intro j hj
          rw [List.length_set]
          exact hlen j (by simp [hj]))
    refine ⟨grad', m', ?_, hm', by simpa [List.length_set] using hglen, ?_⟩
    · rw [bwdLoop, hb]
      show (if i < grad.length then
          bwdLoop knots d t g is (grad.set i (basisP knots i d t * g)) m1 else none) = _
      rw [if_pos hi]
      exact hrec
    · intro j
      rw [hget j, getD_set_zero]
      by_cases hji : j ∈ is
      · simp [hji]
      · by_cases hij : i = j
        · subst hij
          simp [hi, hji]
        · have hji' : j ≠ i := fun h => hij h.symm
          simp [hji, hij, hji']


/-- `Edge::backward` then `Edge::update_weights` behave as one descent step:
characterization of the two operations under the gradient-length invariant
(`gradient.length == control_points.length`, maintained by `Edge::new` and
`update_weights`) and a consistent memo. -/
theorem Edge.backward_ok (e : Edge) (t g : ℝ) (ht0 : 0 ≤ t) (ht1 : t ≤ 1)
    (hmemo : MemoOK e.spline.knots e.spline.memo)
    (hinv : e.gradient.length = e.spline.control_points.length) :
    ∃ e', e.backward t g = some e' ∧
      e'.spline.control_points = e.spline.control_points ∧
      e'.spline.knots = e.spline.knots ∧
      e'.spline.degree = e.spline.degree ∧
      MemoOK e'.spline.knots e'.spline.memo ∧
      e'.gradient.length = e.gradient.length ∧
      ∀ j < e.spline.control_points.length,
        e'.gradient.getD j 0 = basisP e.spline.knots j e.spline.degree t * g := by
  obtain ⟨grad', m', hloop, hm', hglen, hget⟩ :=
    bwdLoop_ok e.spline.knots e.spline.degree t g ht0 ht1
      (List.range e.spline.control_points.length) e.gradient e.spline.memo hmemo
      (by
        intro i hi
        rw [hinv]
        simpa using hi)
  refine ⟨{ e with gradient := grad', spline := { e.spline with memo := m' } },
    ?_, rfl, rfl, rfl, hm', hglen, ?_⟩
  · rw [Edge.backward, hloop, Option.map_some']
  · intro j hj
    rw [hget j, if_pos]
    simpa using hj


theorem zipWith_getD_zero (f : ℝ → ℝ → ℝ) :
    ∀ (a b : List ℝ) (i : ℕ), i < a.length → i < b.length →
      (List.zipWith f a b).getD i 0 = f (a.getD i 0) (b.getD i 0) := by
  intro a
  induction a with
  | nil => intro b i h _; simp at h
  | cons x xs ih =>
    intro b i ha hb
    cases b with
    | nil => simp at hb
    | cons y ys =>
      cases i with
      | zero => simp
      | succ i =>
        simp only [List.zipWith_cons_cons, List.getD_cons_succ]
        exact ih ys i (by simpa using ha) (by simpa using hb)


theorem Edge.forward_ok (e : Edge) (t : ℝ) (ht0 : 0 ≤ t) (ht1 : t ≤ 1)
    (hm : edgeMemoOK e) :
    ∃ m', e.forward t = some (edgeValue e t, { e with spline := { e.spline with memo := m' } }) ∧
      MemoOK e.spline.knots m' := by
  obtain ⟨m', heval, hm'⟩ := evalM_ok e.spline t ht0 ht1 hm
  refine ⟨m', ?_, hm'⟩
  rw [Edge.forward, heval, Option.map_some']
  rfl


theorem batchLoop_ok :
    ∀ (inputs : List ℝ) (e : Edge), (∀ t ∈ inputs, 0 ≤ t ∧ t ≤ 1) → edgeMemoOK e →
      ∃ e', batchLoop e inputs = some (inputs.map (edgeValue e), e') ∧ edgeMemoOK e' ∧
        e'.spline.control_points = e.spline.control_points ∧
        e'.spline.knots = e.spline.knots ∧ e'.spline.degree = e.spline.degree := by
  intro inputs
  induction inputs with
  | nil =>
    intro e _ hm
    exact ⟨e, by simp [batchLoop], hm, rfl, rfl, rfl⟩
  | cons t ts ih =>
    intro e hin hm
    obtain ⟨ht0, ht1⟩ := hin t (by simp)
    obtain ⟨m', hfwd, hm'⟩ := Edge.forward_ok e t ht0 ht1 hm
    obtain ⟨e', hrec, hm'', hcp, hkn, hdeg⟩ :=
      ih { e with spline := { e.spline with memo := m' } }
        (fun u hu => hin u (by simp [hu])) hm'
    refine ⟨e', ?_, hm'', by simpa using hcp, by simpa using hkn, by simpa using hdeg⟩
    rw [batchLoop, hfwd]
    show (match batchLoop { e with spline := { e.spline with memo := m' } } ts with
      | none => none
      | some (vs, e'') => some (edgeValue e t :: vs, e'')) = _
    rw [hrec]
    have hval : edgeValue { e with spline := { e.spline with memo := m' } } = edgeValue e := by
      funext u
      rfl
    rw [hval]
    rfl


theorem knots_new_getD (cp : List ℝ) (degree j : ℕ) :
    (BSpline.new cp degree).knots.getD j 0 =
      if j < cp.length + degree + 1 then
        (j : ℝ) / ((cp.length : ℝ) + (degree : ℝ)) else 0 := by
  rw [BSpline.new]
  by_cases hj : j < cp.length + degree + 1
  · rw [if_pos hj, List.getD_eq_getElem?_getD, List.getElem?_map, List.getElem?_range hj]
    rfl
  · rw [if_neg hj, List.getD_eq_getElem?_getD, List.getElem?_map]
    rw [List.getElem?_eq_none
      (by rw [List.length_range]; exact Nat.le_of_not_lt hj)]
    rfl


theorem knots_new_le_one (cp : List ℝ) (degree : ℕ) (j : ℕ) :
    (BSpline.new cp degree).knots.getD j 0 ≤ 1 := by
  rw [knots_new_getD]
  by_cases hj : j < cp.length + degree + 1
  · rw [if_pos hj]
    have hjle : (j : ℝ) ≤ (cp.length : ℝ) + (degree : ℝ) := by
      have hle : j ≤ cp.length + degree := by omega
      exact_mod_cast hle
    apply div_le_one_of_le₀ hjle
    positivity
  · simp [if_neg hj]


theorem knots_new_last (cp : List ℝ) (degree : ℕ) (h : cp ≠ []) :
    (BSpline.new cp degree).knots.getD (cp.length + degree) 0 = 1 := by
  have hlen : 0 < cp.length := List.length_pos.mpr h
  have h1 : (0 : ℝ) < (cp.length : ℝ) := by exact_mod_cast hlen
  have h2 : (0 : ℝ) ≤ (degree : ℝ) := Nat.cast_nonneg degree
  have hne : (cp.length : ℝ) + (degree : ℝ) ≠ 0 := ne_of_gt (by linarith)
  rw [knots_new_getD, if_pos (by omega)]
  push_cast
  exact div_self hne


theorem basisP_at_one {knots : List ℝ} (hk : ∀ j, knots.getD j 0 ≤ 1) :
    ∀ (d i : ℕ), basisP knots i d 1 = 0 := by
  intro d
  induction d with
  | zero =>
    intro i
    rw [basisP_zero, if_neg]
    rintro ⟨-, hlt⟩
    exact absurd (hk (i + 1)) (not_le.mpr hlt)
  | succ d' ih =>
    intro i
    rw [basisP_succ, ih i, ih (i + 1)]
    simp


/-- C5: after `Edge::backward(t, g)` with `t ∈ [0,1]` followed by
`Edge::update_weights(lr)` with `lr > 0`, every control point becomes
`old - lr * basis(i, degree, t) * g` and the gradient buffer is reset to all
zeros; for `lr ≤ 0`, `update_weights` panics before mutating anything
(modelled as `none`).  Hypotheses: consistent memo and the gradient-length
invariant `gradient.length == control_points.length` maintained by
`Edge::new` and `update_weights`. -/
theorem claim_C5_backward_then_update (e : Edge) (t g lr : ℝ)
    (ht0 : 0 ≤ t) (ht1 : t ≤ 1) (hmemo : edgeMemoOK e)
    (hinv : e.gradient.length = e.spline.control_points.length) :
    (0 < lr → ∃ e1 e2, e.backward t g = some e1 ∧ e1.update_weights lr = some e2 ∧
      (∀ j < e.spline.control_points.length,
        e2.spline.control_points.getD j 0 =
          e.spline.control_points.getD j 0 -
            lr * basisP e.spline.knots j e.spline.degree t * g) ∧
      e2.spline.control_points.length = e.spline.control_points.length ∧
      e2.gradient = List.replicate e.spline.control_points.length 0) ∧
    (lr ≤ 0 → ∀ e' : Edge, e'.update_weights lr = none) := by
  constructor
  · intro hlr
    obtain ⟨e1, hbwd, hcp, hkn, hdeg, hm1, hglen, hget⟩ :=
      Edge.backward_ok e t g ht0 ht1 hmemo hinv
    have hlen1 : e1.spline.control_points.length = e1.gradient.length := by
      rw [hcp, hglen, hinv]
    set cp2 : List ℝ :=
      List.zipWith (fun a b => a - b * lr) e1.spline.control_points e1.gradient with hcp2
    have hupd : e1.update_weights lr =
        some { e1 with
          spline := { e1.spline with control_points := cp2 }
          gradient := List.replicate cp2.length 0 } := by
      rw [Edge.update_weights, if_neg (not_le.mpr hlr), if_pos hlen1]
    have hziplen : cp2.length = e.spline.control_points.length := by
      rw [hcp2, List.length_zipWith, hcp, hglen, hinv, Nat.min_self]
    refine ⟨e1, _, hbwd, hupd, ?_, by simpa using hziplen, by simp [hziplen]⟩
    intro j hj
    have hj1 : j < e1.spline.control_points.length := by rw [hcp]; exact hj
    have hj2 : j < e1.gradient.length := by rw [hglen, hinv]; exact hj
    show cp2.getD j 0 = _
    rw [hcp2, zipWith_getD_zero _ _ _ j hj1 hj2, hcp, hget j hj]
    ring
  · intro hlr e'
    rw [Edge.update_weights, if_pos hlr]


theorem claim_C5_witness :
    ∃ e1 e2, (Edge.new 0 1 (BSpline.new [(1 : ℝ)] 0) 0).backward (1/2) 2 = some e1 ∧
      e1.update_weights (1/2) = some e2 ∧
      (∀ j < (1 : ℕ),
        e2.spline.control_points.getD j 0 =
          ([(1 : ℝ)]).getD j 0 - (1/2) * basisP (BSpline.new [(1 : ℝ)] 0).knots j 0 (1/2) * 2) ∧
      e2.spline.control_points.length = 1 ∧
      e2.gradient = List.replicate 1 0 :=
  (claim_C5_backward_then_update (Edge.new 0 1 (BSpline.new [(1 : ℝ)] 0) 0) (1/2) 2 (1/2)
      (by norm_num) (by norm_num) (memoOK_nil _)
      (by simp [Edge.new, BSpline.new])).1 (by norm_num)


/-- C6: for a spline built by `BSpline::new`, `eval(t)` with `t ∈ [0,1]`
returns `Σ_i control_points[i] * basis(i, degree, t)` where `basis` is the
Cox-de Boor recursion (base case: indicator of `knots[i] <= t < knots[i+1]`;
recursive case: `left + right` with each term taken as `0` when its
denominator vanishes); for `t` outside `[0,1]`, `eval` panics (`none`). -/
theorem claim_C6_eval_is_coxdeboor_sum (cp : List ℝ) (degree : ℕ) (t : ℝ) :
    (0 ≤ t → t ≤ 1 →
      ∃ s', (BSpline.new cp degree).evalM t =
        some (splineSum cp (BSpline.new cp degree).knots degree t, s')) ∧
    ((t < 0 ∨ 1 < t) → (BSpline.new cp degree).evalM t = none) ∧
    (∀ (knots : List ℝ) (i : ℕ),
      basisP knots i 0 t = if knots.getD i 0 ≤ t ∧ t < knots.getD (i + 1) 0 then 1 else 0) ∧
    (∀ (knots : List ℝ) (i d' : ℕ),
      basisP knots i (d' + 1) t =
        (if knots.getD (i + (d' + 1)) 0 ≠ knots.getD i 0 then
          (t - knots.getD i 0) / (knots.getD (i + (d' + 1)) 0 - knots.getD i 0) *
            basisP knots i d' t
        else 0) +
        (if knots.getD (i + (d' + 1) + 1) 0 ≠ knots.getD (i + 1) 0 then
          (knots.getD (i + (d' + 1) + 1) 0 - t) /
              (knots.getD (i + (d' + 1) + 1) 0 - knots.getD (i + 1) 0) *
            basisP knots (i + 1) d' t
        else 0)) := by
  refine ⟨?_, ?_, fun knots i => basisP_zero knots i t,
    fun knots i d' => basisP_succ knots i d' t⟩
  · intro ht0 ht1
    obtain ⟨m', heval, -⟩ := evalM_ok (BSpline.new cp degree) t ht0 ht1 (memoOK_nil _)
    exact ⟨_, heval⟩
  · intro h
    exact evalM_out_of_domain _ t h


theorem claim_C6_witness :
    (∃ s', (BSpline.new [(1 : ℝ), 2] 0).evalM (1/2) =
      some (splineSum [(1 : ℝ), 2] (BSpline.new [(1 : ℝ), 2] 0).knots 0 (1/2), s')) ∧
    (BSpline.new [(1 : ℝ), 2] 0).evalM 2 = none :=
  ⟨(claim_C6_eval_is_coxdeboor_sum [(1 : ℝ), 2] 0 (1/2)).1 (by norm_num) (by norm_num),
   (claim_C6_eval_is_coxdeboor_sum [(1 : ℝ), 2] 0 2).2.1 (by norm_num)⟩


/-- C8: `Edge::forward_batch` on inputs all in `[0,1]` returns the same-length
list whose k-th entry is the value `Edge::forward` yields on the k-th input,
in the original order (the `Vector` iterator pops from the back, producing the
reversed list, and the final `reverse` restores the order). -/
theorem claim_C8_forward_batch_ordered (e : Edge) (inputs : List ℝ)
    (hin : ∀ t ∈ inputs, 0 ≤ t ∧ t ≤ 1) (hm : edgeMemoOK e) :
    (∀ t, 0 ≤ t → t ≤ 1 → (e.forward t).map Prod.fst = some (edgeValue e t)) ∧
    ∃ e', e.forward_batch inputs = some (inputs.map (edgeValue e), e') := by
  constructor
  · intro t ht0 ht1
    obtain ⟨m', hfwd, -⟩ := Edge.forward_ok e t ht0 ht1 hm
    rw [hfwd, Option.map_some']
  · obtain ⟨e', hbl, -, -, -, -⟩ :=
      batchLoop_ok inputs.reverse e (fun t ht => hin t (List.mem_reverse.mp ht)) hm
    refine ⟨e', ?_⟩
    rw [Edge.forward_batch, hbl, Option.map_some', List.map_reverse, List.reverse_reverse]


theorem claim_C8_witness :
    ∃ e', (Edge.new 0 1 (BSpline.new [(1 : ℝ)] 0) 0).forward_batch [0, 1/2] =
      some ([0, 1/2].map (edgeValue (Edge.new 0 1 (BSpline.new [(1 : ℝ)] 0) 0)), e') :=
  (claim_C8_forward_batch_ordered (Edge.new 0 1 (BSpline.new [(1 : ℝ)] 0) 0) [0, 1/2]
      (by intro t ht; fin_cases ht <;> norm_num) (memoOK_nil _)).2


/-- C9: forward evaluation is repeatable: under a consistent memo, every
memoized `basis` call returns exactly the value of the memo-free recursion
(and leaves the memo consistent), and two consecutive `Edge::forward` calls
at the same `t ∈ [0,1]` return the same value, the only state mutated being
the spline's memo cache. -/
theorem claim_C9_forward_idempotent (e : Edge) (t : ℝ)
    (ht0 : 0 ≤ t) (ht1 : t ≤ 1) (hm : edgeMemoOK e) :
    (∀ i d, ∃ m', basisM e.spline.knots i d t e.spline.memo =
        some (basisP e.spline.knots i d t, m') ∧ MemoOK e.spline.knots m') ∧
    ∃ e1, e.forward t = some (edgeValue e t, e1) ∧
      ∃ e2, e1.forward t = some (edgeValue e t, e2) := by
  constructor
  · intro i d
    exact basisM_ok e.spline.knots t ht0 ht1 d i e.spline.memo hm
  · obtain ⟨m', hfwd, hm'⟩ := Edge.forward_ok e t ht0 ht1 hm
    refine ⟨_, hfwd, ?_⟩
    obtain ⟨m'', hfwd2, -⟩ :=
      Edge.forward_ok { e with spline := { e.spline with memo := m' } } t ht0 ht1 hm'
    exact ⟨_, hfwd2⟩


theorem claim_C9_witness :
    ∃ e1, (Edge.new 0 1 (BSpline.new [(1 : ℝ)] 0) 0).forward (1/2) =
        some (edgeValue (Edge.new 0 1 (BSpline.new [(1 : ℝ)] 0) 0) (1/2), e1) ∧
      ∃ e2, e1.forward (1/2) =
        some (edgeValue (Edge.new 0 1 (BSpline.new [(1 : ℝ)] 0) 0) (1/2), e2) :=
  (claim_C9_forward_idempotent (Edge.new 0 1 (BSpline.new [(1 : ℝ)] 0) 0) (1/2)
      (by norm_num) (by norm_num) (memoOK_nil _)).2


/-- C10: for any spline built by `BSpline::new` with at least one control
point, the largest knot is exactly `1`, every basis function vanishes at
`t = 1` (the degree-0 base case uses the strict bound `t < knots[i+1]` and no
knot exceeds `1`), hence `eval(1) = 0` whatever the control points, and
`Edge::forward(1)` on a fresh edge over such a spline returns `silu(1)`
alone. -/
theorem claim_C10_eval_vanishes_at_one (cp : List ℝ) (degree : ℕ) (h : cp ≠ []) :
    (BSpline.new cp degree).knots.getD (cp.length + degree) 0 = 1 ∧
    (∀ i d, basisP (BSpline.new cp degree).knots i d 1 = 0) ∧
    (∃ s', (BSpline.new cp degree).evalM 1 = some (0, s')) ∧
    (∀ st en l, ∃ e', (Edge.new st en (BSpline.new cp degree) l).forward 1 =
      some (silu 1, e')) := by
  have hz : ∀ i d, basisP (BSpline.new cp degree).knots i d 1 = 0 := by
    intro i d
    exact basisP_at_one (knots_new_le_one cp degree) d i
  have hsum : splineSum cp (BSpline.new cp degree).knots degree 1 = 0 := by
    rw [splineSum]
    apply List.sum_eq_zero
    intro x hx
    obtain ⟨i, -, hxeq⟩ := List.mem_map.mp hx
    rw [← hxeq, hz i degree, mul_zero]
  refine ⟨knots_new_last cp degree h, hz, ?_, ?_⟩
  · obtain ⟨m', heval, -⟩ :=
      evalM_ok (BSpline.new cp degree) 1 (by norm_num) (by norm_num) (memoOK_nil _)
    refine ⟨{ BSpline.new cp degree with memo := m' }, ?_⟩
    rw [heval]
    have h0 : splineSum (BSpline.new cp degree).control_points
        (BSpline.new cp degree).knots (BSpline.new cp degree).degree 1 = 0 := hsum
    rw [h0]
  · intro st en l
    obtain ⟨m', hfwd, -⟩ :=
      Edge.forward_ok (Edge.new st en (BSpline.new cp degree) l) 1
        (by norm_num) (by norm_num) (memoOK_nil _)
    refine ⟨{ Edge.new st en (BSpline.new cp degree) l with
      spline := { (Edge.new st en (BSpline.new cp degree) l).spline with memo := m' } }, ?_⟩
    rw [hfwd]
    have h0 : edgeValue (Edge.new st en (BSpline.new cp degree) l) 1 = silu 1 := by
      rw [edgeValue]
      have h1 : splineSum (Edge.new st en (BSpline.new cp degree) l).spline.control_points
          (Edge.new st en (BSpline.new cp degree) l).spline.knots
          (Edge.new st en (BSpline.new cp degree) l).spline.degree 1 = 0 := hsum
      rw [h1, zero_add]
    rw [h0]


theorem claim_C10_witness :
    (BSpline.new [(3 : ℝ)] 2).knots.getD 3 0 = 1 ∧
    (∃ s', (BSpline.new [(3 : ℝ)] 2).evalM 1 = some (0, s')) :=
  ⟨(claim_C10_eval_vanishes_at_one [(3 : ℝ)] 2 (by simp)).1,
   (claim_C10_eval_vanishes_at_one [(3 : ℝ)] 2 (by simp)).2.2.1⟩


/-! Unfolding equations for the loops (all hold by `rfl`); stated once and
used both in the structural proofs and in the concrete evaluations. -/
theorem nodeFwdLoop_nil (ρ : Store) (acc : ℝ) : nodeFwdLoop ρ [] acc = some (acc, ρ) := rfl


theorem nodeFwdLoop_cons (ρ : Store) (eid : ℕ) (t : ℝ) (rest : List (ℕ × ℝ)) (acc : ℝ) :
    nodeFwdLoop ρ ((eid, t) :: rest) acc =
      match Edge.forward (ρ eid) t with
      | none => none
      | some (v, e') => nodeFwdLoop (Function.update ρ eid e') rest (acc + v) := rfl


theorem nodeBwdLoop_nil (ρ : Store) (t : List ℝ) (g : ℝ) : nodeBwdLoop ρ [] t g = some ρ := rfl


theorem nodeBwdLoop_cons (ρ : Store) (i eid : ℕ) (rest : List (ℕ × ℕ)) (t : List ℝ) (g : ℝ) :
    nodeBwdLoop ρ ((i, eid) :: rest) t g =
      match t.get? i with
      | none => none
      | some ti =>
        match Edge.backward (ρ eid) ti g with
        | none => none
        | some e' => nodeBwdLoop (Function.update ρ eid e') rest t g := rfl


theorem nodeUpdLoop_nil (ρ : Store) (lr : ℝ) : nodeUpdLoop ρ [] lr = some ρ := rfl


theorem nodeUpdLoop_cons (ρ : Store) (eid : ℕ) (rest : List ℕ) (lr : ℝ) :
    nodeUpdLoop ρ (eid :: rest) lr =
      match Edge.update_weights (ρ eid) lr with
      | none => none
      | some e' => nodeUpdLoop (Function.update ρ eid e') rest lr := rfl


theorem layerFwdLoop_nil (ρ : Store) : layerFwdLoop ρ [] = some ([], ρ) := rfl


theorem layerFwdLoop_cons (ρ : Store) (nd : Node) (row : List ℝ)
    (rest : List (Node × List ℝ)) :
    layerFwdLoop ρ ((nd, row) :: rest) =
      match Node.forward ρ nd row with
      | none => none
      | some (s, ρ') =>
        match layerFwdLoop ρ' rest with
        | none => none
        | some (rows, ρ'') => some (List.replicate nd.outgoing.length s :: rows, ρ'') := rfl


theorem layerBwdLoop_nil (ρ : Store) : layerBwdLoop ρ [] = some ρ := rfl


theorem layerBwdLoop_cons (ρ : Store) (nd : Node) (row : List ℝ) (g : ℝ)
    (rest : List (Node × (List ℝ × ℝ))) :
    layerBwdLoop ρ ((nd, (row, g)) :: rest) =
      match Node.backward ρ nd row g with
      | none => none
      | some ρ' => layerBwdLoop ρ' rest := rfl


theorem layerUpdLoop_nil (ρ : Store) (lr : ℝ) : layerUpdLoop ρ [] lr = some ρ := rfl


theorem layerUpdLoop_cons (ρ : Store) (nd : Node) (rest : List Node) (lr : ℝ) :
    layerUpdLoop ρ (nd :: rest) lr =
      match Node.update_weights ρ nd lr with
      | none => none
      | some ρ' => layerUpdLoop ρ' rest lr := rfl


theorem kanReplay_nil (ρ : Store) (cur : Matrix) : kanReplay ρ [] cur = some ([], ρ) := rfl


theorem kanReplay_cons (ρ : Store) (ly : Layer) (rest : List Layer) (cur : Matrix) :
    kanReplay ρ (ly :: rest) cur =
      match Layer.forward ρ ly cur with
      | none => none
      | some (out, ρ') =>
        match kanReplay ρ' rest out with
        | none => none
        | some (outs, ρ'') => some (out :: outs, ρ'') := rfl


theorem kanBwdLoop_nil (ρ : Store) (louts : List Matrix) (input : Matrix) (ug : List ℝ) :
    kanBwdLoop ρ [] louts input ug = some ρ := rfl


theorem kanBwdLoop_cons (ρ : Store) (i : ℕ) (ly : Layer) (rest : List (ℕ × Layer))
    (louts : List Matrix) (input : Matrix) (ug : List ℝ) :
    kanBwdLoop ρ ((i, ly) :: rest) louts input ug =
      match Layer.backward ρ ly (layerInputAt louts input i) ug with
      | none => none
      | some ρ' =>
        kanBwdLoop ρ' rest louts input (List.replicate ly.nodes.length (sumFold ug)) := rfl


theorem kanUpdLoop_nil (ρ : Store) (lr : ℝ) : kanUpdLoop ρ [] lr = some ρ := rfl


theorem kanUpdLoop_cons (ρ : Store) (ly : Layer) (rest : List Layer) (lr : ℝ) :
    kanUpdLoop ρ (ly :: rest) lr =
      match Layer.update_weights ρ ly lr with
      | none => none
      | some ρ' => kanUpdLoop ρ' rest lr := rfl


theorem Layer.forward_nil (ρ : Store) (ly : Layer) : Layer.forward ρ ly [] = none := rfl


theorem Layer.forward_cons (ρ : Store) (ly : Layer) (r : List ℝ) (rest : Matrix) :
    Layer.forward ρ ly (r :: rest) =
      if (r :: rest).length = ly.nodes.length then layerFwdLoop ρ (ly.nodes.zip (r :: rest))
      else none := rfl


theorem layerFwdLoop_length (pairs : List (Node × List ℝ)) :
    ∀ (ρ : Store) (rows : Matrix) (ρ' : Store),
      layerFwdLoop ρ pairs = some (rows, ρ') → rows.length = pairs.length := by
  induction pairs with
  | nil =>
    intro ρ rows ρ' h
    rw [layerFwdLoop_nil] at h
    obtain ⟨h1, -⟩ := Prod.mk.injEq .. ▸ Option.some_inj.mp h
    rw [← h1]
    rfl
  | cons p rest ih =>
    intro ρ rows ρ' h
    obtain ⟨nd, row⟩ := p
    rw [layerFwdLoop_cons] at h
    rcases hnf : Node.forward ρ nd row with _ | q
    · rw [hnf] at h
      simp at h
    · obtain ⟨s, ρ1⟩ := q
      rw [hnf] at h
      dsimp only at h
      rcases hrec : layerFwdLoop ρ1 rest with _ | r
      · rw [hrec] at h
        simp at h
      · obtain ⟨rows1, ρ2⟩ := r
        rw [hrec] at h
        simp only [Option.some_inj] at h
        obtain ⟨h1, -⟩ := Prod.mk.injEq .. ▸ h
        rw [← h1, List.length_cons, ih ρ1 rows1 ρ2 hrec]
        rfl


theorem Layer.forward_shape (ρ : Store) (ly : Layer) (input : Matrix)
    (out : Matrix) (ρ' : Store) (h : Layer.forward ρ ly input = some (out, ρ')) :
    input.length = ly.nodes.length ∧ out.length = ly.nodes.length ∧ input ≠ [] := by
  rcases input with _ | ⟨r, rest⟩
  · rw [Layer.forward_nil] at h
    simp at h
  · rw [Layer.forward_cons] at h
    by_cases hlen : (r :: rest).length = ly.nodes.length
    · rw [if_pos hlen] at h
      refine ⟨hlen, ?_, by simp⟩
      have := layerFwdLoop_length (ly.nodes.zip (r :: rest)) ρ out ρ' h
      rw [this, List.length_zip, hlen, Nat.min_self]
    · rw [if_neg hlen] at h
      simp at h


/-- A layer holding one node with no outgoing edges can only produce the
one-empty-row matrix `[[]]`: the node's scalar is broadcast into a row of
length `outgoing.length = 0`. -/
theorem layer_forward_single_no_outgoing (ρ : Store) (nd : Node)
    (hout : nd.outgoing = []) (input : Matrix) (out : Matrix) (ρ' : Store)
    (h : Layer.forward ρ ⟨[nd]⟩ input = some (out, ρ')) : out = [[]] := by
  rcases input with _ | ⟨r, rest⟩
  · rw [Layer.forward_nil] at h
    simp at h
  · rw [Layer.forward_cons] at h
    by_cases hlen : (r :: rest).length = ([nd] : List Node).length
    · rw [if_pos hlen] at h
      have hzip : (({ nodes := [nd] } : Layer)).nodes.zip (r :: rest) = [(nd, r)] := by
        simp [List.zip]
      rw [hzip, layerFwdLoop_cons] at h
      rcases hnf : Node.forward ρ nd r with _ | q
      · rw [hnf] at h
        simp at h
      · obtain ⟨s, ρ1⟩ := q
        rw [hnf] at h
        dsimp only at h
        rw [layerFwdLoop_nil] at h
        simp only [Option.some_inj] at h
        obtain ⟨h1, -⟩ := Prod.mk.injEq .. ▸ h
        rw [← h1, hout]
        rfl
    · rw [if_neg hlen] at h
      simp at h


/-- C1: on every network built by `KAN::standard`, `KAN::forward` can never
return a value, whatever the edge store holds and whatever the input matrix
is: if all layers succeed, the output layer's only node has no outgoing
edges, so the final matrix is the single empty row `[[]]` and the read
`output[0][0]` panics; any earlier panic also aborts the call.  This
contradicts the spec (and the repository's own `kan_forward_pass` test),
which expect the final layer's single output entry to be returned. -/
theorem claim_C1_standard_forward_never_returns (n m : ℕ) (ρ : Store) (input : Matrix) :
    KAN.forward ρ (KAN.standard n m) input = none := by
  rw [KAN.forward]
  rcases hrep : kanReplay ρ (KAN.standard n m).layers input with _ | p
  · rfl
  · obtain ⟨outs, ρ'⟩ := p
    rw [show (KAN.standard n m).layers =
      [(KAN.standard n m).layers.getD 0 default, { nodes :=
        [ { incoming := (List.range m).map (fun i => n * m + i)
            outgoing := []
            layer := 2 } ] }] from rfl] at hrep
    rw [kanReplay_cons] at hrep
    rcases h1 : Layer.forward ρ ((KAN.standard n m).layers.getD 0 default) input with _ | q1
    · rw [h1] at hrep
      simp at hrep
    · obtain ⟨out1, ρ1⟩ := q1
      rw [h1] at hrep
      dsimp only at hrep
      rw [kanReplay_cons] at hrep
      rcases h2 : Layer.forward ρ1 { nodes :=
          [ { incoming := (List.range m).map (fun i => n * m + i)
              outgoing := []
              layer := 2 } ] } out1 with _ | q2
      · rw [h2] at hrep
        simp at hrep
      · obtain ⟨out2, ρ2⟩ := q2
        rw [h2] at hrep
        dsimp only at hrep
        rw [kanReplay_nil] at hrep
        simp only [Option.some_inj] at hrep
        obtain ⟨houts, -⟩ := Prod.mk.injEq .. ▸ hrep
        have h22 : out2 = [[]] :=
          layer_forward_single_no_outgoing ρ1 _ rfl out1 out2 ρ2 h2
        rw [← houts, h22]
        rfl


theorem kanReplay_counts (ls : List Layer) :
    ∀ (ρ : Store) (cur : Matrix) (louts : List Matrix) (ρ' : Store),
      kanReplay ρ ls cur = some (louts, ρ') →
      ∀ j, j + 1 < ls.length →
        (ls.getD j default).nodes.length = (ls.getD (j + 1) default).nodes.length := by
  induction ls with
  | nil =>
    intro ρ cur louts ρ' h j hj
    simp at hj
  | cons ly rest ih =>
    intro ρ cur louts ρ' h j hj
    rw [kanReplay_cons] at h
    rcases h1 : Layer.forward ρ ly cur with _ | q1
    · rw [h1] at h
      simp at h
    · obtain ⟨out, ρ1⟩ := q1
      rw [h1] at h
      dsimp only at h
      rcases hrec : kanReplay ρ1 rest out with _ | q2
      · rw [hrec] at h
        simp at h
      · obtain ⟨outs, ρ2⟩ := q2
        cases j with
        | zero =>
          cases rest with
          | nil => simp at hj
          | cons ly2 rest2 =>
            rw [kanReplay_cons] at hrec
            rcases h2 : Layer.forward ρ1 ly2 out with _ | q3
            · rw [h2] at hrec
              simp at hrec
            · obtain ⟨out2, ρ3⟩ := q3
              have e1 : out.length = ly.nodes.length :=
                (Layer.forward_shape ρ ly cur out ρ1 h1).2.1
              have e2 : out.length = ly2.nodes.length :=
                (Layer.forward_shape ρ1 ly2 out out2 ρ3 h2).1
              show ly.nodes.length = ly2.nodes.length
              rw [← e1, e2]
        | succ j =>
          have hj' : j + 1 < rest.length := by
            simpa using hj
          have := ih ρ1 out outs ρ2 hrec j hj'
          simpa using this


/-- C3 (amended): after each layer's backward, `KAN::backward` rebuilds the
upstream gradient as the total sum replicated once per node of the layer
*just processed* (second conjunct, the loop's defining equation); this length
nevertheless always equals the earlier layer's node count whenever the
backward loop is reached at all, because the forward replay only succeeds
when all layers have equal node counts (first conjunct) — adjacent layers
with different node counts make the replay itself panic, so no layer's
backward is ever reached with a wrong-length gradient. -/
theorem claim_C3_gradient_length_equal_counts (kan : KAN) (ρ : Store) (input : Matrix)
    (louts : List Matrix) (ρ' : Store)
    (h : kanReplay ρ kan.layers input = some (louts, ρ')) :
    (∀ j, j + 1 < kan.layers.length →
      (kan.layers.getD j default).nodes.length =
        (kan.layers.getD (j + 1) default).nodes.length) ∧
    (∀ (ρ0 : Store) (i : ℕ) (ly : Layer) (rest : List (ℕ × Layer))
        (louts0 : List Matrix) (input0 : Matrix) (ug : List ℝ),
      kanBwdLoop ρ0 ((i, ly) :: rest) louts0 input0 ug =
        match Layer.backward ρ0 ly (layerInputAt louts0 input0 i) ug with
        | none => none
        | some ρ1 =>
          kanBwdLoop ρ1 rest louts0 input0
            (List.replicate ly.nodes.length (sumFold ug))) :=
  ⟨kanReplay_counts kan.layers ρ input louts ρ' h,
   fun ρ0 i ly rest louts0 input0 ug => kanBwdLoop_cons ρ0 i ly rest louts0 input0 ug⟩


theorem Layer.backward_nil (ρ : Store) (ly : Layer) (ug : List ℝ) :
    Layer.backward ρ ly [] ug = none := rfl


theorem Layer.backward_cons (ρ : Store) (ly : Layer) (r : List ℝ) (rest : Matrix)
    (ug : List ℝ) :
    Layer.backward ρ ly (r :: rest) ug =
      if (r :: rest).length = ly.nodes.length then
        if ug.length = ly.nodes.length then layerBwdLoop ρ (ly.nodes.zip ((r :: rest).zip ug))
        else none
      else none := rfl


/-- C4 (counterexample): on the one-node network `kanC4` with input `[0]`,
target `0` and learning rate `1/2`, the pre-update loss is `1/4` (prediction
`1/2`), but `KAN::train` returns `0`: `loss_single` is called only after
`update_edges` has already moved the control point from `1/2` to `0`. -/
theorem claim_C4_counterexample :
    (KAN.train storeC4 kanC4 [0] 0 (1/2)).map Prod.fst = some 0 ∧
    (KAN.loss_single storeC4 kanC4 [0] 0).map Prod.fst = some (1/4) ∧
    (0 : ℝ) ≠ 1/4 := by
  refine ⟨?_, ?_, by norm_num⟩ <;>
  norm_num [KAN.train, KAN.backward, KAN.update_edges, KAN.loss_single, KAN.forward,
    kanReplay_cons, kanReplay_nil, kanBwdLoop_cons, kanBwdLoop_nil,
    kanUpdLoop_cons, kanUpdLoop_nil,
    Layer.forward_cons, Layer.backward_cons, Layer.update_weights,
    layerFwdLoop_cons, layerFwdLoop_nil, layerBwdLoop_cons, layerBwdLoop_nil,
    layerUpdLoop_cons, layerUpdLoop_nil,
    Node.forward, Node.backward, Node.update_weights,
    nodeFwdLoop_cons, nodeFwdLoop_nil, nodeBwdLoop_cons, nodeBwdLoop_nil,
    nodeUpdLoop_cons, nodeUpdLoop_nil,
    Edge.forward, Edge.backward, Edge.update_weights, bwdLoop,
    BSpline.evalM, evalLoop, basisM, memoFind, memoInsert, BSpline.new, Edge.new,
    silu, sumFold, layerInputAt,
    List.range_succ, List.range_zero, List.zip, List.enum, List.enumFrom,
    List.getLastD, List.getLast?, List.reverse_cons, List.reverse_nil,
    Function.update_apply, storeC4, kanC4, nodeC7, storeC7,
    -Prod.mk_zero_zero, -Prod.mk_one_one]


/-- C4 (amended): `KAN::train` runs `backward`, then `update_edges`, and
returns the loss computed only afterwards — the post-update squared error,
not the pre-update one. -/
theorem claim_C4_train_returns_post_update_loss (ρ : Store) (kan : KAN)
    (input : List ℝ) (target lr v : ℝ) (ρf : Store)
    (h : KAN.train ρ kan input target lr = some (v, ρf)) :
    ∃ ρ1 ρ2, KAN.backward ρ kan [input] target = some ρ1 ∧
      KAN.update_edges ρ1 kan lr = some ρ2 ∧
      KAN.loss_single ρ2 kan input target = some (v, ρf) := by
  rw [KAN.train] at h
  rcases h1 : KAN.backward ρ kan [input] target with _ | ρ1
  · rw [h1] at h
    simp at h
  · rw [h1] at h
    dsimp only at h
    rcases h2 : KAN.update_edges ρ1 kan lr with _ | ρ2
    · rw [h2] at h
      simp at h
    · rw [h2] at h
      dsimp only at h
      exact ⟨ρ1, ρ2, rfl, h2, h⟩


theorem claim_C4_witness :
    ∃ v ρf ρ1 ρ2, KAN.train storeC4 kanC4 [0] 0 (1/2) = some (v, ρf) ∧
      KAN.backward storeC4 kanC4 [[0]] 0 = some ρ1 ∧
      KAN.update_edges ρ1 kanC4 (1/2) = some ρ2 ∧
      KAN.loss_single ρ2 kanC4 [0] 0 = some (v, ρf) := by
  have hs : (KAN.train storeC4 kanC4 [0] 0 (1/2)).isSome = true := by
    norm_num [KAN.train, KAN.backward, KAN.update_edges, KAN.loss_single, KAN.forward,
      kanReplay_cons, kanReplay_nil, kanBwdLoop_cons, kanBwdLoop_nil,
      kanUpdLoop_cons, kanUpdLoop_nil,
      Layer.forward_cons, Layer.backward_cons, Layer.update_weights,
      layerFwdLoop_cons, layerFwdLoop_nil, layerBwdLoop_cons, layerBwdLoop_nil,
      layerUpdLoop_cons, layerUpdLoop_nil,
      Node.forward, Node.backward, Node.update_weights,
      nodeFwdLoop_cons, nodeFwdLoop_nil, nodeBwdLoop_cons, nodeBwdLoop_nil,
      nodeUpdLoop_cons, nodeUpdLoop_nil,
      Edge.forward, Edge.backward, Edge.update_weights, bwdLoop,
      BSpline.evalM, evalLoop, basisM, memoFind, memoInsert, BSpline.new, Edge.new,
      silu, sumFold, layerInputAt,
      List.range_succ, List.range_zero, List.zip, List.enum, List.enumFrom,
      List.getLastD, List.getLast?, List.reverse_cons, List.reverse_nil,
      Function.update_apply, storeC4, kanC4,
      -Prod.mk_zero_zero, -Prod.mk_one_one]
  obtain ⟨p, hp⟩ := Option.isSome_iff_exists.mp hs
  obtain ⟨v, ρf⟩ := p
  obtain ⟨ρ1, ρ2, h1, h2, h3⟩ :=
    claim_C4_train_returns_post_update_loss storeC4 kanC4 [0] 0 (1/2) v ρf hp
  exact ⟨v, ρf, ρ1, ρ2, hp, h1, h2, h3⟩


/-- C2: the reverse loop of `KAN::backward` hands the *original network
input* to the layer at reverse counter `i = 0` — the LAST layer — and
`layer_outputs[i-1]` to the others (first two conjuncts, from the loop's
input selection).  Concretely, on the two-layer chain `kanC2` with network
input `0`: the forward pass evaluates the second layer's edge at `3/4`
(basis 1's support), yet its recorded gradient after `backward` is
`[2*(1/4 + silu(3/4)), 0]` — all weight on basis 0, i.e. the edge's
`backward` ran at the network input `0` rather than at its actual forward
input `3/4` (which would have produced `[0, 2*(1/4 + silu(3/4))]`). -/
theorem claim_C2_backward_feeds_input_to_last_layer :
    (∀ (louts : List Matrix) (inp : Matrix), layerInputAt louts inp 0 = inp) ∧
    (∀ (louts : List Matrix) (inp : Matrix) (i : ℕ), 0 < i →
      layerInputAt louts inp i = louts.getD (i - 1) []) ∧
    (KAN.backward storeC2 kanC2 [[0]] 0).map
        (fun ρ' => ((ρ' 1).gradient, (ρ' 0).gradient)) =
      some ([2 * (1/4 + silu (3/4)), 0], [2 * (1/4 + silu (3/4))]) := by
  refine ⟨fun louts inp => rfl, fun louts inp i hi => ?_, ?_⟩
  · rw [layerInputAt, if_pos hi]
  · norm_num [KAN.backward,
      kanReplay_cons, kanReplay_nil, kanBwdLoop_cons, kanBwdLoop_nil,
      Layer.forward_cons, Layer.backward_cons,
      layerFwdLoop_cons, layerFwdLoop_nil, layerBwdLoop_cons, layerBwdLoop_nil,
      Node.forward, Node.backward,
      nodeFwdLoop_cons, nodeFwdLoop_nil, nodeBwdLoop_cons, nodeBwdLoop_nil,
      Edge.forward, Edge.backward, bwdLoop,
      BSpline.evalM, evalLoop, basisM, memoFind, memoInsert, BSpline.new, Edge.new,
      silu, sumFold, layerInputAt,
      List.range_succ, List.range_zero, List.zip, List.enum, List.enumFrom,
      List.getLastD, List.getLast?, List.reverse_cons, List.reverse_nil,
      List.replicate_succ, List.replicate_zero, List.set_cons_zero, List.set_cons_succ,
      Function.update_apply, storeC2, kanC2,
      -Prod.mk_zero_zero, -Prod.mk_one_one]


/-- C3 (counterexample): on the two-layer network `kanC3` whose adjacent
layers have node counts 2 and 1, the forward replay inside `KAN::backward`
already panics (the first layer emits one row per node, so the second layer's
row-count check fails); no `Layer::backward` is ever reached, with a
wrong-length gradient or otherwise. -/
theorem claim_C3_counterexample :
    kanReplay storeC3 kanC3.layers [[0], [0]] = none ∧
    KAN.backward storeC3 kanC3 [[0], [0]] 0 = none ∧
    (kanC3.layers.getD 0 default).nodes.length = 2 ∧
    (kanC3.layers.getD 1 default).nodes.length = 1 := by
  refine ⟨?_, ?_, rfl, rfl⟩ <;>
  norm_num [KAN.backward,
    kanReplay_cons, kanReplay_nil,
    Layer.forward_cons,
    layerFwdLoop_cons, layerFwdLoop_nil,
    Node.forward, nodeFwdLoop_cons, nodeFwdLoop_nil,
    Edge.forward,
    BSpline.evalM, evalLoop, basisM, memoFind, memoInsert, BSpline.new, Edge.new,
    silu, List.range_succ, List.range_zero, List.zip,
    Function.update_apply, storeC3, kanC3,
    -Prod.mk_zero_zero, -Prod.mk_one_one]


theorem claim_C3_witness :
    ∃ louts ρ', kanReplay storeC2 kanC2.layers [[0]] = some (louts, ρ') ∧
      ∀ j, j + 1 < kanC2.layers.length →
        (kanC2.layers.getD j default).nodes.length =
          (kanC2.layers.getD (j + 1) default).nodes.length := by
  have hs : (kanReplay storeC2 kanC2.layers [[0]]).isSome = true := by
    norm_num [kanReplay_cons, kanReplay_nil,
      Layer.forward_cons, layerFwdLoop_cons, layerFwdLoop_nil,
      Node.forward, nodeFwdLoop_cons, nodeFwdLoop_nil,
      Edge.forward,
      BSpline.evalM, evalLoop, basisM, memoFind, memoInsert, BSpline.new, Edge.new,
      silu, List.range_succ, List.range_zero, List.zip,
      Function.update_apply, storeC2, kanC2,
      -Prod.mk_zero_zero, -Prod.mk_one_one]
  obtain ⟨p, hp⟩ := Option.isSome_iff_exists.mp hs
  obtain ⟨louts, ρ'⟩ := p
  exact ⟨louts, ρ', hp,
    (claim_C3_gradient_length_equal_counts kanC2 storeC2 [[0]] louts ρ' hp).1⟩


/-- C7: `Node::backward` performs no length check: on a node with a single
incoming edge, an input vector of length 2 is accepted — the call succeeds
and writes the edge gradient from `inputs[0]`, silently ignoring the extra
entry — whereas `Node::forward` rejects the same vector.  This contradicts
the spec's invariant that any shape violation during backward is a fatal
error. -/
theorem claim_C7_node_backward_length_unchecked :
    nodeC7.incoming.length = 1 ∧
    Node.forward storeC7 nodeC7 [1/2, 9/10] = none ∧
    (Node.backward storeC7 nodeC7 [1/2, 9/10] 1).map (fun ρ' => (ρ' 0).gradient) =
      some [1] := by
  refine ⟨rfl, ?_, ?_⟩ <;>
  norm_num [Node.forward, Node.backward,
    nodeFwdLoop_cons, nodeFwdLoop_nil, nodeBwdLoop_cons, nodeBwdLoop_nil,
    Edge.backward, bwdLoop,
    basisM, memoFind, memoInsert, BSpline.new, Edge.new,
    List.range_succ, List.range_zero, List.enum, List.enumFrom,
    Function.update_apply, nodeC7, storeC7,
    -Prod.mk_zero_zero, -Prod.mk_one_one]


end RustyKAN
